import Mathlib

/-!
Shallow embedding of `src/server/python_downloader.py` (Music-Apps).

Modelling conventions:
- Python strings are Lean `String` (a wrapper around `List Char`); the
  low-level string work is done on `List Char`.
- Python dictionaries with a fixed key set become structures whose fields
  are `Option`-valued, so `d.get(k, v)` becomes `(f.k).getD v` and a
  missing key is `none`.
- The external collaborators (the yt-dlp extraction engine, the
  filesystem probed after a download, and the network fetch used for
  thumbnails) are modelled by an explicit per-attempt outcome record
  `AttemptWorld`; raising Python code is `Except String`-valued.
-/

/-- Python `s.split(sep)[0]` for a fixed non-empty `sep`: the prefix of
`s` strictly before the first occurrence of `sep`, or all of `s` when
`sep` does not occur in `s`. -/
def takeBeforeFirst (sep : List Char) : List Char → List Char
  | [] => []
  | c :: rest => if sep <+: c :: rest then [] else c :: takeBeforeFirst sep rest

/-- The marker `'&list='` from `clean_url`. -/
def lsMark : List Char := "&list=".data

/-- The marker `'&start_radio='` from `clean_url`. -/
def srMark : List Char := "&start_radio=".data

/-- Model of `clean_url` from the source:
`url.split('&list=')[0].split('&start_radio=')[0]`. -/
def clean_url (url : String) : String :=
  ⟨takeBeforeFirst srMark (takeBeforeFirst lsMark url.data)⟩

/-- Predicate: `t` is the prefix of `s` before the first occurrence of `sep`, stated
in the spec's words: if `sep` occurs at a first position `i`, then `t`
is `s.take i`; and if `sep` occurs nowhere in `s`, then `t = s`. -/
def PrefixBeforeFirst (sep s t : List Char) : Prop :=
  (∃ i, sep <+: s.drop i ∧ (∀ j, j < i → ¬ sep <+: s.drop j) ∧ t = s.take i) ∨
  ((∀ i, i < s.length → ¬ sep <+: s.drop i) ∧ t = s)

lemma takeBeforeFirst_prefix_self (sep : List Char) :
    ∀ s : List Char, takeBeforeFirst sep s <+: s := by
  intro s
  induction s with
  | nil => simp [takeBeforeFirst]
  | cons c rest ih =>
    by_cases h : sep <+: c :: rest
    · simp [takeBeforeFirst, h]
    · rw [takeBeforeFirst, if_neg h]
      obtain ⟨t, ht⟩ := ih
      exact ⟨t, by simp [ht]⟩

lemma takeBeforeFirst_of_forall_not (sep : List Char) :
    ∀ s : List Char, (∀ i, i < s.length → ¬ sep <+: s.drop i) →
      takeBeforeFirst sep s = s := by
  intro s
  induction s with
  | nil => intro _; rfl
  | cons c rest ih =>
    intro h
    have h0 : ¬ sep <+: c :: rest := by simpa using h 0 (by simp)
    rw [takeBeforeFirst, if_neg h0]
    have : takeBeforeFirst sep rest = rest := by
      refine ih fun i hi => ?_
      simpa [List.drop_succ_cons] using h (i + 1) (by simpa using hi)
    rw [this]

lemma takeBeforeFirst_first (sep : List Char) :
    ∀ (s : List Char) (i : Nat), sep <+: s.drop i →
      (∀ j, j < i → ¬ sep <+: s.drop j) → takeBeforeFirst sep s = s.take i := by
  intro s
  induction s with
  | nil =>
    intro i hocc hmin
    cases i with
    | zero =>
      simp only [List.drop] at hocc
      rw [List.prefix_nil] at hocc
      simp [takeBeforeFirst, hocc]
    | succ j =>
      exact absurd (by simpa using hocc) (by simpa using hmin 0 (Nat.succ_pos j))
  | cons c rest ih =>
    intro i hocc hmin
    cases i with
    | zero =>
      rw [takeBeforeFirst, if_pos (by simpa using hocc)]
      simp
    | succ j =>
      have h0 : ¬ sep <+: c :: rest := by simpa using hmin 0 (Nat.succ_pos j)
      rw [takeBeforeFirst, if_neg h0, List.take_succ_cons]
      have := ih j (by simpa [List.drop_succ_cons] using hocc)
        (fun m hm => by simpa [List.drop_succ_cons] using hmin (m + 1) (by omega))
      rw [this]

lemma prefixBeforeFirst_of_takeBeforeFirst (sep s : List Char) :
    PrefixBeforeFirst sep s (takeBeforeFirst sep s) := by
  by_cases h : ∃ i, sep <+: s.drop i
  · left
    refine ⟨Nat.find h, Nat.find_spec h, fun j hj => Nat.find_min h hj, ?_⟩
    exact takeBeforeFirst_first sep s (Nat.find h) (Nat.find_spec h)
      (fun j hj => Nat.find_min h hj)
  · right
    push_neg at h
    exact ⟨fun i _ => h i, takeBeforeFirst_of_forall_not sep s (fun i _ => h i)⟩

lemma takeBeforeFirst_fixed_of_prefix_self (sep : List Char) :
    ∀ (p s : List Char), takeBeforeFirst sep s = s → p <+: s →
      takeBeforeFirst sep p = p := by
  intro p
  induction p with
  | nil => intro s _ _; rfl
  | cons c p' ih =>
    intro s hfix hpre
    obtain ⟨t, ht⟩ := hpre
    subst ht
    rw [List.cons_append] at hfix
    by_cases hb : sep <+: c :: (p' ++ t)
    · rw [takeBeforeFirst, if_pos hb] at hfix
      exact absurd hfix (by simp)
    · rw [takeBeforeFirst, if_neg hb] at hfix
      have hfix' : takeBeforeFirst sep (p' ++ t) = p' ++ t := by
        have := List.cons.injEq c (takeBeforeFirst sep (p' ++ t)) c (p' ++ t)
        simpa [this] using hfix
      have hb' : ¬ sep <+: c :: p' := fun hp =>
        hb (hp.trans ⟨t, by simp⟩)
      rw [takeBeforeFirst, if_neg hb']
      rw [ih (p' ++ t) hfix' ⟨t, rfl⟩]

lemma takeBeforeFirst_idem (sep : List Char) :
    ∀ s : List Char, takeBeforeFirst sep (takeBeforeFirst sep s) =
      takeBeforeFirst sep s := by
  intro s
  induction s with
  | nil => rfl
  | cons c rest ih =>
    by_cases hb : sep <+: c :: rest
    · rw [takeBeforeFirst, if_pos hb]
      rfl
    · rw [takeBeforeFirst, if_neg hb]
      have hb' : ¬ sep <+: c :: takeBeforeFirst sep rest := by
        intro hp
        obtain ⟨t, ht⟩ := takeBeforeFirst_prefix_self sep rest
        exact hb (hp.trans ⟨t, by simp [ht]⟩)
      rw [takeBeforeFirst, if_neg hb', ih]

/-- Claim C2: `clean_url` removes, in sequence, the suffix of the URL from
the first occurrence of `&list=` onward and then the suffix from the first
occurrence of `&start_radio=` onward; a URL containing neither marker is
returned unchanged, and the worked example from the spec evaluates as
stated. -/
theorem c2_clean_url_spec :
    (∀ u : String,
        PrefixBeforeFirst lsMark u.data (takeBeforeFirst lsMark u.data) ∧
        PrefixBeforeFirst srMark (takeBeforeFirst lsMark u.data) (clean_url u).data) ∧
    (∀ u : String,
        (∀ i, i < u.data.length → ¬ lsMark <+: u.data.drop i) →
        (∀ i, i < u.data.length → ¬ srMark <+: u.data.drop i) →
        clean_url u = u) ∧
    clean_url "https://x?v=1&list=PL123&start_radio=1" = "https://x?v=1" := by
  refine ⟨fun u => ⟨prefixBeforeFirst_of_takeBeforeFirst _ _,
    prefixBeforeFirst_of_takeBeforeFirst _ _⟩, fun u hls hsr => ?_, by decide⟩
  have h1 : takeBeforeFirst lsMark u.data = u.data :=
    takeBeforeFirst_of_forall_not _ _ hls
  show (⟨takeBeforeFirst srMark (takeBeforeFirst lsMark u.data)⟩ : String) = u
  rw [h1, takeBeforeFirst_of_forall_not _ _ hsr]

/-- Claim C2 witness: a URL containing neither marker is unchanged. -/
theorem c2_clean_url_spec_witness : clean_url "abc" = "abc" :=
  c2_clean_url_spec.2.1 "abc" (by decide) (by decide)

/-- Claim C8: the URL normalizer is idempotent:
`clean_url (clean_url u) = clean_url u` for every string `u`. -/
theorem c8_clean_url_idempotent (u : String) :
    clean_url (clean_url u) = clean_url u := by
  show (⟨takeBeforeFirst srMark (takeBeforeFirst lsMark
      (takeBeforeFirst srMark (takeBeforeFirst lsMark u.data)))⟩ : String) = _
  have hfixls : takeBeforeFirst lsMark
      (takeBeforeFirst srMark (takeBeforeFirst lsMark u.data)) =
      takeBeforeFirst srMark (takeBeforeFirst lsMark u.data) :=
    takeBeforeFirst_fixed_of_prefix_self lsMark _ _
      (takeBeforeFirst_idem lsMark u.data)
      (takeBeforeFirst_prefix_self srMark _)
  rw [hfixls, takeBeforeFirst_idem]
  rfl

/-- Python `s.strip(c)` for a single character: remove every leading and
every trailing occurrence of `c`. -/
def stripChar (c : Char) (l : List Char) : List Char :=
  ((l.dropWhile (· = c)).reverse.dropWhile (· = c)).reverse

/-- Model of `percent.strip('%')` as used by `progress_hook`. -/
def stripPercent (s : String) : String := ⟨stripChar '%' s.data⟩

/-- The status dictionary handed to `progress_hook` by the extraction
engine: a `'status'` key (required by the hook) and an optional
`'_percent_str'` key. -/
structure StatusDict where
  status : String
  percent_str : Option String
deriving DecidableEq

/-- Model of `progress_hook` from the source, returning the list of lines it
prints.  Python's `float` parser and float formatting are abstracted as
`parse` (partial: `none` models a raised `ValueError`/`TypeError`) and
`fmt`; the `try`/`except` around `float(percent)` becomes the `match` on
`parse`'s result. -/
def progress_hook {α : Type} (parse : String → Option α) (fmt : α → String)
    (d : StatusDict) : List String :=
  if d.status = "downloading" then
    match parse (stripPercent (d.percent_str.getD "0%")) with
    | some p => ["PROGRESS:" ++ fmt p]
    | none => []
  else if d.status = "finished" then ["PROGRESS:100"]
  else []

/-- Claim C10: the progress hook is total on dictionaries carrying a
`'status'` key; for status `'downloading'` it prints one
`PROGRESS:<number>` line exactly when the stripped percent string parses
as a number (and prints nothing when the parse raises), for status
`'finished'` it prints exactly `PROGRESS:100`, and for every other
status it prints nothing. -/
theorem c10_progress_hook_spec {α : Type} (parse : String → Option α)
    (fmt : α → String) (d : StatusDict) :
    (d.status = "downloading" →
      ((∃ p, parse (stripPercent (d.percent_str.getD "0%")) = some p ∧
          progress_hook parse fmt d = ["PROGRESS:" ++ fmt p]) ∨
        (parse (stripPercent (d.percent_str.getD "0%")) = none ∧
          progress_hook parse fmt d = []))) ∧
    (d.status = "finished" → progress_hook parse fmt d = ["PROGRESS:100"]) ∧
    (d.status ≠ "downloading" → d.status ≠ "finished" →
      progress_hook parse fmt d = []) := by
  refine ⟨fun hd => ?_, fun hd => ?_, fun hd hf => ?_⟩
  · rcases hp : parse (stripPercent (d.percent_str.getD "0%")) with _ | p
    · right
      exact ⟨rfl, by simp [progress_hook, hd, hp]⟩
    · left
      exact ⟨p, rfl, by simp [progress_hook, hd, hp]⟩
  · have : d.status ≠ "downloading" := by simp [hd]
    simp [progress_hook, this, hd]
  · simp [progress_hook, hd, hf]

/-- Claim C10 witness: instantiated with a concrete partial parser and
the three kinds of status. -/
theorem c10_progress_hook_spec_witness :
    progress_hook (fun s => if s = "42" then some (42 : Nat) else none)
      (fun n => toString n) ⟨"finished", none⟩ = ["PROGRESS:100"] ∧
    progress_hook (fun s => if s = "42" then some (42 : Nat) else none)
      (fun n => toString n) ⟨"error", some "42%"⟩ = [] ∧
    ((∃ p, (if stripPercent "42%" = "42" then some (42 : Nat) else none) = some p ∧
        progress_hook (fun s => if s = "42" then some (42 : Nat) else none)
          (fun n => toString n) ⟨"downloading", some "42%"⟩ =
          ["PROGRESS:" ++ toString p]) ∨
      ((if stripPercent "42%" = "42" then some (42 : Nat) else none) = none ∧
        progress_hook (fun s => if s = "42" then some (42 : Nat) else none)
          (fun n => toString n) ⟨"downloading", some "42%"⟩ = [])) :=
  ⟨(c10_progress_hook_spec _ _ _).2.1 rfl,
   (c10_progress_hook_spec _ _ _).2.2 (by decide) (by decide),
   (c10_progress_hook_spec (fun s => if s = "42" then some (42 : Nat) else none)
      (fun n => toString n) ⟨"downloading", some "42%"⟩).1 rfl⟩

/-- One entry of the extraction metadata's `thumbnails` list: the
`width`, `height` and `url` keys are all optional (`x.get(k, default)`
in the source). -/
structure Thumb where
  width : Option Nat
  height : Option Nat
  url : Option String
deriving DecidableEq

/-- The sort key of `download_thumbnail`'s `max(...)` call:
`x.get('width', 0) * x.get('height', 0)`. -/
def thumbKey (t : Thumb) : Nat := t.width.getD 0 * t.height.getD 0

/-- Python `max(thumbnails, key=...)`: fold keeping the current best and
replacing it only on a strictly larger key, so the first element with
the maximal key wins; `none` on the empty list (where Python raises, but
the source only calls this on a non-empty list). -/
def bestThumbnail : List Thumb → Option Thumb
  | [] => none
  | t :: ts => some (ts.foldl (fun best x => if thumbKey best < thumbKey x then x else best) t)

/-- The thumbnail URL chosen by `download_thumbnail` before fetching:
`None` unless the metadata has a truthy `thumbnails` list, else the
`url` key of the best candidate. -/
def bestThumbnailUrl (thumbnails : Option (List Thumb)) : Option String :=
  match thumbnails with
  | none => none
  | some ts =>
    if ts.isEmpty then none
    else match bestThumbnail ts with
      | none => none
      | some best => best.url

/-- Python substring test `needle in hay` on `List Char`. -/
def containsSub (needle : List Char) : List Char → Bool
  | [] => needle.isEmpty
  | c :: t => decide (needle <+: c :: t) || containsSub needle t

/-- Model of `str.lower` from the source, character by character. -/
def lowerStr (s : String) : String := ⟨s.data.map Char.toLower⟩

/-- The extension heuristic of `download_thumbnail`: `webp` if the
lowercased URL contains `'webp'`, else `png` if it contains `'png'`,
else the default `'jpg'`. -/
def thumbExt (url : String) : String :=
  if containsSub "webp".data (lowerStr url).data then "webp"
  else if containsSub "png".data (lowerStr url).data then "png"
  else "jpg"

/-- Model of `download_thumbnail` from the source, returning the thumbnail
filename it reports (`none` both when no truthy URL is selected and when
the byte fetch raises).  The network fetch `urllib.request.urlretrieve`
is abstracted by the flag `fetchOk`; `fetchOk = false` models the fetch
raising, which the source's `try`/`except` turns into `return None`. -/
def download_thumbnail (fetchOk : Bool) (thumbnails : Option (List Thumb))
    (file_id : String) : Option String :=
  match bestThumbnailUrl thumbnails with
  | none => none
  | some u =>
    if u.isEmpty then none
    else if fetchOk then some (file_id ++ "_thumbnail." ++ thumbExt u)
    else none

/-- The fetch of `download_thumbnail` is attempted (control reaches
`urlretrieve`) exactly when the selected thumbnail URL is truthy. -/
def fetchAttempted (thumbnails : Option (List Thumb)) : Bool :=
  match bestThumbnailUrl thumbnails with
  | none => false
  | some u => !u.isEmpty

/-- Predicate: `r` is the first element of `l` with the maximal key: every element
before it is strictly smaller, every element after it is no larger. -/
def IsFirstMax (key : Thumb → Nat) (l : List Thumb) (r : Thumb) : Prop :=
  ∃ l₁ l₂, l = l₁ ++ r :: l₂ ∧ (∀ t ∈ l₁, key t < key r) ∧ (∀ t ∈ l₂, key t ≤ key r)

lemma isFirstMax_head_le (key : Thumb → Nat) (h : Thumb) (t : List Thumb)
    (r : Thumb) (hfm : IsFirstMax key (h :: t) r) : key h ≤ key r := by
  obtain ⟨l₁, l₂, hdec, hlt, _⟩ := hfm
  cases l₁ with
  | nil =>
    simp only [List.nil_append, List.cons.injEq] at hdec
    rw [hdec.1]
  | cons a l₁' =>
    simp only [List.cons_append, List.cons.injEq] at hdec
    have := hlt a (List.mem_cons_self a l₁')
    rw [← hdec.1] at this
    exact this.le

lemma foldl_isFirstMax (key : Thumb → Nat) :
    ∀ (l : List Thumb) (acc : Thumb),
      IsFirstMax key (acc :: l)
        (l.foldl (fun best x => if key best < key x then x else best) acc) := by
  intro l
  induction l with
  | nil => exact fun acc => ⟨[], [], rfl, by simp, by simp⟩
  | cons x xs ih =>
    intro acc
    rw [List.foldl_cons]
    by_cases hx : key acc < key x
    · rw [if_pos hx]
      have fm := ih x
      revert fm
      generalize List.foldl (fun best x => if key best < key x then x else best) x xs = r
      intro fm
      have hxr := isFirstMax_head_le key x xs r fm
      obtain ⟨l₁, l₂, hdec, hlt, hle⟩ := fm
      refine ⟨acc :: l₁, l₂, by simp [hdec], ?_, hle⟩
      intro t ht
      rcases List.mem_cons.mp ht with rfl | htl
      · exact Nat.lt_of_lt_of_le hx hxr
      · exact hlt t htl
    · rw [if_neg hx]
      have fm := ih acc
      revert fm
      generalize List.foldl (fun best x => if key best < key x then x else best) acc xs = r
      intro fm
      have hra := isFirstMax_head_le key acc xs r fm
      obtain ⟨l₁, l₂, hdec, hlt, hle⟩ := fm
      cases l₁ with
      | nil =>
        simp only [List.nil_append, List.cons.injEq] at hdec
        refine ⟨[], x :: xs, by simp [← hdec.1], by simp, ?_⟩
        intro t ht
        rcases List.mem_cons.mp ht with rfl | htl
        · exact Nat.le_trans (Nat.le_of_not_lt hx) hra
        · rw [← hdec.2] at hle
          exact hle t htl
      | cons a l₁' =>
        simp only [List.cons_append, List.cons.injEq] at hdec
        have haccr : key acc < key r := by
          have := hlt a (List.mem_cons_self a l₁')
          rw [← hdec.1] at this
          exact this
        refine ⟨acc :: x :: l₁', l₂, by simp [hdec.2], ?_, hle⟩
        intro t ht
        rcases List.mem_cons.mp ht with rfl | htl
        · exact haccr
        · rcases List.mem_cons.mp htl with rfl | htl'
          · exact Nat.lt_of_le_of_lt (Nat.le_of_not_lt hx) haccr
          · exact hlt t (List.mem_cons_of_mem a htl')

/-- Claim C5: on every non-empty thumbnail candidate list the selection
of `download_thumbnail` is the candidate maximizing `width * height`,
ties broken by list order (first maximal element wins); on the spec's
example `[(100 x 100, A), (400 x 300, B), (200 x 200, C)]` it selects B. -/
theorem c5_best_thumbnail_first_max :
    (∀ ts : List Thumb, ts ≠ [] →
        ∃ best, bestThumbnail ts = some best ∧ IsFirstMax thumbKey ts best) ∧
    bestThumbnail [⟨some 100, some 100, some "A"⟩, ⟨some 400, some 300, some "B"⟩,
        ⟨some 200, some 200, some "C"⟩] = some ⟨some 400, some 300, some "B"⟩ := by
  refine ⟨fun ts hne => ?_, by decide⟩
  cases ts with
  | nil => exact absurd rfl hne
  | cons t ts' => exact ⟨_, rfl, foldl_isFirstMax thumbKey ts' t⟩

/-- Claim C5 witness: the non-emptiness hypothesis discharged on the
spec's example list. -/
theorem c5_best_thumbnail_first_max_witness :
    ∃ best, bestThumbnail [⟨some 100, some 100, some "A"⟩,
        ⟨some 400, some 300, some "B"⟩, ⟨some 200, some 200, some "C"⟩] = some best ∧
      IsFirstMax thumbKey [⟨some 100, some 100, some "A"⟩,
        ⟨some 400, some 300, some "B"⟩, ⟨some 200, some 200, some "C"⟩] best :=
  c5_best_thumbnail_first_max.1 _ (by decide)

/-- The extraction metadata used by `download_youtube_audio`: all keys
are read with `info.get(...)`, so all fields are optional. -/
structure Info where
  thumbnails : Option (List Thumb)
  title : Option String
  uploader : Option String
  channel : Option String
  duration : Option Nat
deriving DecidableEq

/-- A download strategy.  The client-impersonation parameters and extra
flags of the source's strategy dictionaries are forwarded verbatim to
the extraction engine, which this embedding keeps abstract (the engine's
behaviour per attempt lives in `AttemptWorld`), so only the `name` field
is carried. -/
structure Strategy where
  name : String
deriving DecidableEq

/-- The fixed ordered strategy list of `download_youtube_audio`. -/
def strategies : List Strategy :=
  [⟨"Android Client"⟩, ⟨"iOS Client"⟩, ⟨"TV Client"⟩, ⟨"Web Client with Bypass"⟩,
   ⟨"Android Music"⟩, ⟨"TV Embedded"⟩, ⟨"Age Gate Bypass"⟩, ⟨"Embed Bypass"⟩]

/-- The outcome of the external collaborators for one strategy attempt:
what `ydl.extract_info` returns (`.error` models a raised exception,
`.ok none` a falsy info), whether `ydl.download` raises, which files
exist in the output directory after the download step, and whether the
thumbnail byte fetch succeeds. -/
structure AttemptWorld where
  extract : Except String (Option Info)
  download : Except String Unit
  files : List String
  fetchOk : Bool

/-- The success record returned by `download_youtube_audio`
(`success: True` is carried by the `RunResult.ok` constructor). -/
structure SuccessRecord where
  filename : String
  thumbnail : Option String
  title : String
  artist : String
  duration : Nat
  strategy : String
deriving DecidableEq

/-- The terminal result of the runner: the success record, or the
failure record `{'success': False, 'error': msg}`. -/
inductive RunResult where
  | ok : SuccessRecord → RunResult
  | err : String → RunResult
deriving DecidableEq

/-- Observable events of a run, used to state which strategies are
attempted and when the thumbnail fetch is reached. -/
inductive Event where
  | attempt : Nat → String → Event
  | thumbFetch : Nat → Event
deriving DecidableEq

/-- The file-probe loop of the source: for each extension in order,
return the first `{file_id}.{ext}` that exists in the output directory. -/
def probeLoop (file_id : String) (files : List String) : List String → Option String
  | [] => none
  | e :: es =>
    if (file_id ++ "." ++ e) ∈ files then some e else probeLoop file_id files es

/-- The fixed extension preference order of the probe loop. -/
def audioExts : List String := ["mp3", "m4a", "webm", "ogg"]

/-- Probe the output directory for `{file_id}.{ext}`, `ext` drawn from
`audioExts` in order. -/
def probeExt (file_id : String) (files : List String) : Option String :=
  probeLoop file_id files audioExts

/-- The strategy loop of `download_youtube_audio`.  `world i` is the
collaborators' outcome for the attempt with index `i`.  Per attempt:
extract metadata (a raised error or a falsy result advances to the next
strategy), run the download (a raised error advances), then download the
thumbnail, then probe for the audio file; on a probe hit return the
success record tagged with the strategy's name, otherwise advance.  When
the list is exhausted, return the failure record.  The second component
is the event trace: which attempts start and where the thumbnail byte
fetch is reached. -/
def runStrategies (world : Nat → AttemptWorld) (file_id : String) :
    Nat → List Strategy → RunResult × List Event
  | _, [] => (.err "All download strategies failed", [])
  | i, s :: rest =>
    match (world i).extract with
    | .error _ =>
      let r := runStrategies world file_id (i + 1) rest
      (r.1, .attempt i s.name :: r.2)
    | .ok none =>
      let r := runStrategies world file_id (i + 1) rest
      (r.1, .attempt i s.name :: r.2)
    | .ok (some info) =>
      match (world i).download with
      | .error _ =>
        let r := runStrategies world file_id (i + 1) rest
        (r.1, .attempt i s.name :: r.2)
      | .ok _ =>
        let tev := if fetchAttempted info.thumbnails then [Event.thumbFetch i] else []
        let tn := download_thumbnail (world i).fetchOk info.thumbnails file_id
        match probeExt file_id (world i).files with
        | some ext =>
          (.ok { filename := file_id ++ "." ++ ext,
                 thumbnail := tn,
                 title := info.title.getD "Unknown",
                 artist := info.uploader.getD (info.channel.getD "Unknown"),
                 duration := info.duration.getD 0,
                 strategy := s.name },
           .attempt i s.name :: tev)
        | none =>
          let r := runStrategies world file_id (i + 1) rest
          (r.1, .attempt i s.name :: (tev ++ r.2))

/-- Model of `download_youtube_audio` from the source: clean the URL once, then
run the fixed strategy list from index 0.  The engine's per-attempt
behaviour may depend on the (cleaned) URL it is handed. -/
def download_youtube_audio (world : String → Nat → AttemptWorld)
    (url : String) (file_id : String) : RunResult × List Event :=
  runStrategies (world (clean_url url)) file_id 0 strategies

/-- The indices of the attempts recorded in a trace, in order. -/
def attemptsOf (tr : List Event) : List Nat :=
  tr.filterMap fun e =>
    match e with
    | .attempt i _ => some i
    | .thumbFetch _ => none

/-- Helper: `ascRange i n` is the list `[i, i+1, ..., i+n-1]`. -/
def ascRange (i : Nat) : Nat → List Nat
  | 0 => []
  | n + 1 => i :: ascRange (i + 1) n

/-- A strategy attempt fails: metadata extraction raises or resolves no
metadata, or the download raises, or no `{file_id}.{ext}` with a probed
extension exists after the download step. -/
def attemptFails (w : AttemptWorld) (file_id : String) : Bool :=
  match w.extract with
  | .error _ => true
  | .ok none => true
  | .ok (some _) =>
    match w.download with
    | .error _ => true
    | .ok _ => (probeExt file_id w.files).isNone

/-- A strategy attempt succeeds in producing a probed audio file. -/
def attemptSucceeds (w : AttemptWorld) (file_id : String) : Bool :=
  match w.extract with
  | .ok (some _) =>
    match w.download with
    | .ok _ => (probeExt file_id w.files).isSome
    | .error _ => false
  | _ => false

lemma attemptsOf_cons_attempt (i : Nat) (n : String) (tr : List Event) :
    attemptsOf (.attempt i n :: tr) = i :: attemptsOf tr := rfl

lemma attemptsOf_tev (b : Bool) (i : Nat) (tr : List Event) :
    attemptsOf ((if b then [Event.thumbFetch i] else []) ++ tr) = attemptsOf tr := by
  cases b <;> rfl

lemma run_all_fail (world : Nat → AttemptWorld) (file_id : String) :
    ∀ (ss : List Strategy) (i : Nat),
      (∀ j, j < ss.length → attemptFails (world (i + j)) file_id = true) →
      (runStrategies world file_id i ss).1 = .err "All download strategies failed" := by
  intro ss
  induction ss with
  | nil => intro i _; rfl
  | cons s rest ih =>
    intro i h
    have h0 : attemptFails (world i) file_id = true := by
      simpa using h 0 (by simp)
    have hrec : (runStrategies world file_id (i + 1) rest).1 =
        .err "All download strategies failed" := by
      refine ih (i + 1) fun j hj => ?_
      have := h (j + 1) (by simpa using hj)
      rwa [show i + (j + 1) = i + 1 + j by omega] at this
    rcases hex : (world i).extract with e | oinfo
    · simp [runStrategies, hex, hrec]
    · cases oinfo with
      | none => simp [runStrategies, hex, hrec]
      | some info =>
        rcases hdl : (world i).download with e | u
        · simp [runStrategies, hex, hdl, hrec]
        · have hpr : probeExt file_id (world i).files = none := by
            have := h0
            simp only [attemptFails, hex, hdl, Option.isNone_iff_eq_none] at this
            exact this
          simp [runStrategies, hex, hdl, hpr, hrec]

lemma run_first_success (world : Nat → AttemptWorld) (file_id : String) :
    ∀ (ss : List Strategy) (i k : Nat) (hk : k < ss.length),
      (∀ j, j < k → attemptFails (world (i + j)) file_id = true) →
      ∀ (info : Info) (ext : String),
        (world (i + k)).extract = .ok (some info) →
        (world (i + k)).download = .ok () →
        probeExt file_id (world (i + k)).files = some ext →
        (runStrategies world file_id i ss).1 =
          .ok { filename := file_id ++ "." ++ ext,
                thumbnail := download_thumbnail (world (i + k)).fetchOk
                  info.thumbnails file_id,
                title := info.title.getD "Unknown",
                artist := info.uploader.getD (info.channel.getD "Unknown"),
                duration := info.duration.getD 0,
                strategy := (ss.get ⟨k, hk⟩).name } ∧
        attemptsOf (runStrategies world file_id i ss).2 = ascRange i (k + 1) := by
  intro ss
  induction ss with
  | nil => intro i k hk; exact absurd hk (by simp)
  | cons s rest ih =>
    intro i k hk hfail info ext hex hdl hpr
    cases k with
    | zero =>
      rw [Nat.add_zero] at hex hdl hpr
      constructor
      · simp [runStrategies, hex, hdl, hpr, List.get]
      · cases hfa : fetchAttempted info.thumbnails with
        | false => simp [runStrategies, hex, hdl, hpr, hfa, attemptsOf, ascRange]
        | true => simp [runStrategies, hex, hdl, hpr, hfa, attemptsOf, ascRange]
    | succ k' =>
      have h0 : attemptFails (world i) file_id = true := by
        simpa using hfail 0 (Nat.succ_pos k')
      have hk' : k' < rest.length := Nat.lt_of_succ_lt_succ hk
      have hfail' : ∀ j, j < k' → attemptFails (world (i + 1 + j)) file_id = true := by
        intro j hj
        have := hfail (j + 1) (by omega)
        rwa [show i + (j + 1) = i + 1 + j by omega] at this
      have hik : i + 1 + k' = i + (k' + 1) := by omega
      have hex' : (world (i + 1 + k')).extract = .ok (some info) := by rw [hik]; exact hex
      have hdl' : (world (i + 1 + k')).download = .ok () := by rw [hik]; exact hdl
      have hpr' : probeExt file_id (world (i + 1 + k')).files = some ext := by
        rw [hik]; exact hpr
      obtain ⟨ih1, ih2⟩ := ih (i + 1) k' hk' hfail' info ext hex' hdl' hpr'
      rw [hik] at ih1
      rcases hex0 : (world i).extract with e | oinfo
      · constructor
        · simpa [runStrategies, hex0] using ih1
        · rw [show runStrategies world file_id i (s :: rest) =
              ((runStrategies world file_id (i + 1) rest).1,
               .attempt i s.name :: (runStrategies world file_id (i + 1) rest).2) by
            simp [runStrategies, hex0]]
          rw [attemptsOf_cons_attempt, ih2]
          rfl
      · cases oinfo with
        | none =>
          constructor
          · simpa [runStrategies, hex0] using ih1
          · rw [show runStrategies world file_id i (s :: rest) =
                ((runStrategies world file_id (i + 1) rest).1,
                 .attempt i s.name :: (runStrategies world file_id (i + 1) rest).2) by
              simp [runStrategies, hex0]]
            rw [attemptsOf_cons_attempt, ih2]
            rfl
        | some info0 =>
          rcases hdl0 : (world i).download with e | u
          · constructor
            · simpa [runStrategies, hex0, hdl0] using ih1
            · rw [show runStrategies world file_id i (s :: rest) =
                  ((runStrategies world file_id (i + 1) rest).1,
                   .attempt i s.name :: (runStrategies world file_id (i + 1) rest).2) by
                simp [runStrategies, hex0, hdl0]]
              rw [attemptsOf_cons_attempt, ih2]
              rfl
          · have hpr0 : probeExt file_id (world i).files = none := by
              have := h0
              simp only [attemptFails, hex0, hdl0, Option.isNone_iff_eq_none] at this
              exact this
            constructor
            · simpa [runStrategies, hex0, hdl0, hpr0] using ih1
            · rw [show runStrategies world file_id i (s :: rest) =
                  ((runStrategies world file_id (i + 1) rest).1,
                   .attempt i s.name ::
                     ((if fetchAttempted info0.thumbnails then [Event.thumbFetch i] else []) ++
                      (runStrategies world file_id (i + 1) rest).2)) by
                simp [runStrategies, hex0, hdl0, hpr0]]
              rw [attemptsOf_cons_attempt, attemptsOf_tev, ih2]
              rfl

lemma attemptSucceeds_elim (w : AttemptWorld) (file_id : String)
    (h : attemptSucceeds w file_id = true) :
    ∃ info ext, w.extract = .ok (some info) ∧ w.download = .ok () ∧
      probeExt file_id w.files = some ext := by
  rcases hex : w.extract with e | oinfo
  · rw [attemptSucceeds, hex] at h
    cases h
  · cases oinfo with
    | none =>
      rw [attemptSucceeds, hex] at h
      cases h
    | some info =>
      rcases hdl : w.download with e | u
      · rw [attemptSucceeds, hex, hdl] at h
        cases h
      · rw [attemptSucceeds, hex, hdl] at h
        obtain ⟨ext, hext⟩ := Option.isSome_iff_exists.mp h
        cases u
        exact ⟨info, ext, rfl, rfl, hext⟩

/-- Claim C1: for every strategy list and every fake-engine behaviour in
which attempts `0..k-1` fail (no metadata, a raised error, or no probed
file) and attempt `k` succeeds in producing a probed audio file, the
runner returns a success record tagged with strategy `k`'s name, and the
attempts made are exactly `0, 1, ..., k` in order — first match wins, no
strategy after `k` is attempted, no strategy is tried twice. -/
theorem c1_first_match_wins (world : Nat → AttemptWorld) (file_id : String)
    (ss : List Strategy) (k : Nat) (hk : k < ss.length)
    (hfail : ∀ j, j < k → attemptFails (world j) file_id = true)
    (hsucc : attemptSucceeds (world k) file_id = true) :
    (∃ r, (runStrategies world file_id 0 ss).1 = .ok r ∧
      r.strategy = (ss.get ⟨k, hk⟩).name) ∧
    attemptsOf (runStrategies world file_id 0 ss).2 = ascRange 0 (k + 1) := by
  obtain ⟨info, ext, hex, hdl, hpr⟩ := attemptSucceeds_elim _ _ hsucc
  have hfail0 : ∀ j, j < k → attemptFails (world (0 + j)) file_id = true := by
    intro j hj
    rw [Nat.zero_add]
    exact hfail j hj
  obtain ⟨h1, h2⟩ := run_first_success world file_id ss 0 k hk hfail0 info ext
    (by rw [Nat.zero_add]; exact hex) (by rw [Nat.zero_add]; exact hdl)
    (by rw [Nat.zero_add]; exact hpr)
  exact ⟨⟨_, h1, rfl⟩, h2⟩

/-- Metadata record used by the concrete witnesses. -/
def exampleInfo : Info :=
  ⟨some [⟨some 1, some 2, some "http://e/p.png"⟩], some "T", some "U", some "Ch", some 7⟩

/-- An attempt whose metadata resolution yields a falsy result. -/
def failAttempt : AttemptWorld := ⟨.ok none, .ok (), [], true⟩

/-- An attempt that succeeds with an `.m4a` file on disk. -/
def succAttempt : AttemptWorld := ⟨.ok (some exampleInfo), .ok (), ["f.m4a"], true⟩

/-- A world in which attempt 0 fails and every later attempt succeeds. -/
def exampleWorld : Nat → AttemptWorld := fun i => if i < 1 then failAttempt else succAttempt

/-- Claim C1 witness: attempt 0 fails, attempt 1 succeeds; the result is
tagged with strategy 1's name and exactly attempts 0 and 1 are made. -/
theorem c1_first_match_wins_witness :
    (∃ r, (runStrategies exampleWorld "f" 0 strategies).1 = .ok r ∧
      r.strategy = (strategies.get ⟨1, by decide⟩).name) ∧
    attemptsOf (runStrategies exampleWorld "f" 0 strategies).2 = ascRange 0 2 :=
  c1_first_match_wins exampleWorld "f" strategies 1 (by decide) (by decide) (by decide)

/-- Claim C3: if every strategy in the list fails (no metadata, a raised
error, or no probed `{file_id}.{ext}` file after the download step), the
runner returns exactly the failure record
`{'success': False, 'error': 'All download strategies failed'}`. -/
theorem c3_exhaustion_failure_record (world : Nat → AttemptWorld) (file_id : String)
    (ss : List Strategy)
    (h : ∀ j, j < ss.length → attemptFails (world j) file_id = true) :
    (runStrategies world file_id 0 ss).1 = .err "All download strategies failed" := by
  refine run_all_fail world file_id ss 0 fun j hj => ?_
  rw [Nat.zero_add]
  exact h j hj

/-- Claim C3 witness: all eight strategies fail. -/
theorem c3_exhaustion_failure_record_witness :
    (runStrategies (fun _ => failAttempt) "f" 0 strategies).1 =
      .err "All download strategies failed" :=
  c3_exhaustion_failure_record (fun _ => failAttempt) "f" strategies (by decide)

lemma probeLoop_eq_some (file_id : String) (files : List String) :
    ∀ (l : List String) (e : String),
      probeLoop file_id files l = some e ↔
        ∃ pre post, l = pre ++ e :: post ∧ (file_id ++ "." ++ e) ∈ files ∧
          ∀ e2 ∈ pre, (file_id ++ "." ++ e2) ∉ files := by
  intro l
  induction l with
  | nil =>
    intro e
    constructor
    · intro h
      simp [probeLoop] at h
    · rintro ⟨pre, post, hdec, -, -⟩
      exact absurd hdec (by simp)
  | cons a l' ih =>
    intro e
    by_cases hm : (file_id ++ "." ++ a) ∈ files
    · rw [probeLoop, if_pos hm]
      constructor
      · intro h
        cases h
        exact ⟨[], l', rfl, hm, by simp⟩
      · rintro ⟨pre, post, hdec, hmem, hpre⟩
        cases pre with
        | nil =>
          simp only [List.nil_append, List.cons.injEq] at hdec
          rw [hdec.1]
        | cons b pre' =>
          simp only [List.cons_append, List.cons.injEq] at hdec
          have := hpre b (List.mem_cons_self b pre')
          rw [← hdec.1] at this
          exact absurd hm this
    · rw [probeLoop, if_neg hm, ih e]
      constructor
      · rintro ⟨pre, post, hdec, hmem, hpre⟩
        refine ⟨a :: pre, post, by simp [hdec], hmem, ?_⟩
        intro e2 he2
        rcases List.mem_cons.mp he2 with rfl | h2
        · exact hm
        · exact hpre e2 h2
      · rintro ⟨pre, post, hdec, hmem, hpre⟩
        cases pre with
        | nil =>
          simp only [List.nil_append, List.cons.injEq] at hdec
          rw [hdec.1] at hm
          exact absurd hmem hm
        | cons b pre' =>
          simp only [List.cons_append, List.cons.injEq] at hdec
          exact ⟨pre', post, hdec.2, hmem,
            fun e2 h2 => hpre e2 (List.mem_cons_of_mem b h2)⟩

lemma probeExt_m4a (file_id : String) (files : List String)
    (hm4a : (file_id ++ "." ++ "m4a") ∈ files)
    (hmp3 : (file_id ++ "." ++ "mp3") ∉ files) :
    probeExt file_id files = some "m4a" := by
  show probeLoop file_id files audioExts = some "m4a"
  rw [audioExts, probeLoop, if_neg hmp3, probeLoop, if_pos hm4a]

/-- Claim C4: the produced file is found by probing `{file_id}.{ext}`
for the extensions `[mp3, m4a, webm, ogg]` in that fixed order, the
first existing extension winning (the model has no notion of file
modification time, so the probe cannot depend on it); in particular with
`.m4a` and `.webm` both present (and no `.mp3`, which the probing order
stated by the claim itself would prefer), the success record's
`filename` is `{file_id}.m4a`. -/
theorem c4_probe_extension_order :
    (∀ (file_id : String) (files : List String) (ext : String),
        probeExt file_id files = some ext ↔
          ∃ pre post, audioExts = pre ++ ext :: post ∧
            (file_id ++ "." ++ ext) ∈ files ∧
            ∀ e2 ∈ pre, (file_id ++ "." ++ e2) ∉ files) ∧
    (∀ (file_id : String) (files : List String),
        (file_id ++ "." ++ "m4a") ∈ files → (file_id ++ "." ++ "mp3") ∉ files →
        probeExt file_id files = some "m4a") ∧
    (∀ (world : Nat → AttemptWorld) (file_id : String) (s : Strategy)
        (rest : List Strategy) (info : Info),
        (world 0).extract = .ok (some info) → (world 0).download = .ok () →
        (file_id ++ "." ++ "m4a") ∈ (world 0).files →
        (file_id ++ "." ++ "webm") ∈ (world 0).files →
        (file_id ++ "." ++ "mp3") ∉ (world 0).files →
        ∃ r, (runStrategies world file_id 0 (s :: rest)).1 = .ok r ∧
          r.filename = file_id ++ "." ++ "m4a") := by
  refine ⟨fun file_id files ext => probeLoop_eq_some file_id files audioExts ext,
    fun file_id files hm4a hmp3 => probeExt_m4a file_id files hm4a hmp3,
    fun world file_id s rest info hex hdl hm4a _ hmp3 => ?_⟩
  have hpr : probeExt file_id (world 0).files = some "m4a" :=
    probeExt_m4a file_id (world 0).files hm4a hmp3
  obtain ⟨h1, -⟩ := run_first_success world file_id (s :: rest) 0 0 (by simp)
    (fun j hj => absurd hj (by omega)) info "m4a" hex hdl hpr
  exact ⟨_, h1, rfl⟩

/-- Claim C4 witness: with `f.m4a` and `f.webm` on disk and no `f.mp3`,
the probe and the returned record report `f.m4a`. -/
theorem c4_probe_extension_order_witness :
    probeExt "f" ["f.m4a", "f.webm"] = some "m4a" ∧
    (∃ r, (runStrategies
        (fun _ => ⟨.ok (some exampleInfo), .ok (), ["f.m4a", "f.webm"], true⟩)
        "f" 0 [⟨"Android Client"⟩]).1 = .ok r ∧
      r.filename = "f" ++ "." ++ "m4a") :=
  ⟨c4_probe_extension_order.2.1 "f" ["f.m4a", "f.webm"] (by decide) (by decide),
   c4_probe_extension_order.2.2
     (fun _ => ⟨.ok (some exampleInfo), .ok (), ["f.m4a", "f.webm"], true⟩)
     "f" ⟨"Android Client"⟩ [] exampleInfo rfl rfl (by decide) (by decide) (by decide)⟩

/-- Claim C6: a thumbnail byte fetch that raises is absorbed —
`download_thumbnail` returns `None` instead of propagating — and a
strategy that produced a probed audio file still returns a success
record (`success: True`) with `thumbnail = None`. -/
theorem c6_thumbnail_failure_isolated :
    (∀ (thumbnails : Option (List Thumb)) (file_id : String),
        download_thumbnail false thumbnails file_id = none) ∧
    (∀ (world : Nat → AttemptWorld) (file_id : String) (ss : List Strategy)
        (k : Nat), k < ss.length →
        (∀ j, j < k → attemptFails (world j) file_id = true) →
        attemptSucceeds (world k) file_id = true →
        (world k).fetchOk = false →
        ∃ r, (runStrategies world file_id 0 ss).1 = .ok r ∧ r.thumbnail = none) := by
  have habs : ∀ (tns : Option (List Thumb)) (fid : String),
      download_thumbnail false tns fid = none := by
    intro tns fid
    rcases hurl : bestThumbnailUrl tns with _ | u
    · simp [download_thumbnail, hurl]
    · by_cases he : u.isEmpty <;> simp [download_thumbnail, hurl, he]
  refine ⟨habs, fun world file_id ss k hk hfail hsucc hfk => ?_⟩
  obtain ⟨info, ext, hex, hdl, hpr⟩ := attemptSucceeds_elim _ _ hsucc
  have hfail0 : ∀ j, j < k → attemptFails (world (0 + j)) file_id = true := by
    intro j hj
    rw [Nat.zero_add]
    exact hfail j hj
  obtain ⟨h1, -⟩ := run_first_success world file_id ss 0 k hk hfail0 info ext
    (by rw [Nat.zero_add]; exact hex) (by rw [Nat.zero_add]; exact hdl)
    (by rw [Nat.zero_add]; exact hpr)
  rw [Nat.zero_add] at h1
  refine ⟨_, h1, ?_⟩
  show download_thumbnail (world k).fetchOk info.thumbnails file_id = none
  rw [hfk]
  exact habs _ _

/-- Claim C6 witness: attempt 0 succeeds with a truthy thumbnail URL but
a failing byte fetch; the result is a success record with no thumbnail. -/
theorem c6_thumbnail_failure_isolated_witness :
    ∃ r, (runStrategies (fun _ => ⟨.ok (some exampleInfo), .ok (), ["f.m4a"], false⟩)
        "f" 0 strategies).1 = .ok r ∧ r.thumbnail = none :=
  c6_thumbnail_failure_isolated.2
    (fun _ => ⟨.ok (some exampleInfo), .ok (), ["f.m4a"], false⟩) "f" strategies 0
    (by decide) (fun j hj => absurd hj (by omega)) (by decide) rfl

/-- Claim C9: in every success record the `artist` field is the
metadata's `uploader` value verbatim, falling back to the `channel`
value when the uploader is absent, and the `title` field is the metadata
title unmodified (no title-splitting heuristic). -/
theorem c9_artist_uploader_verbatim (world : Nat → AttemptWorld) (file_id : String)
    (ss : List Strategy) (k : Nat) (hk : k < ss.length)
    (hfail : ∀ j, j < k → attemptFails (world j) file_id = true)
    (info : Info) (ext : String)
    (hex : (world k).extract = .ok (some info))
    (hdl : (world k).download = .ok ())
    (hpr : probeExt file_id (world k).files = some ext) :
    ∃ r, (runStrategies world file_id 0 ss).1 = .ok r ∧
      r.artist = info.uploader.getD (info.channel.getD "Unknown") ∧
      (∀ up, info.uploader = some up → r.artist = up) ∧
      (info.uploader = none → ∀ ch, info.channel = some ch → r.artist = ch) ∧
      r.title = info.title.getD "Unknown" ∧
      (∀ t, info.title = some t → r.title = t) := by
  have hfail0 : ∀ j, j < k → attemptFails (world (0 + j)) file_id = true := by
    intro j hj
    rw [Nat.zero_add]
    exact hfail j hj
  obtain ⟨h1, -⟩ := run_first_success world file_id ss 0 k hk hfail0 info ext
    (by rw [Nat.zero_add]; exact hex) (by rw [Nat.zero_add]; exact hdl)
    (by rw [Nat.zero_add]; exact hpr)
  refine ⟨_, h1, rfl, ?_, ?_, rfl, ?_⟩
  · intro up hup
    show info.uploader.getD (info.channel.getD "Unknown") = up
    rw [hup]
    rfl
  · intro hup ch hch
    show info.uploader.getD (info.channel.getD "Unknown") = ch
    rw [hup, hch]
    rfl
  · intro t ht
    show info.title.getD "Unknown" = t
    rw [ht]
    rfl

/-- Claim C9 witness: with uploader `U` present the artist is `U`; with
title `T` present the title is `T`. -/
theorem c9_artist_uploader_verbatim_witness :
    ∃ r, (runStrategies (fun _ => ⟨.ok (some exampleInfo), .ok (), ["f.m4a"], true⟩)
        "f" 0 strategies).1 = .ok r ∧
      r.artist = exampleInfo.uploader.getD (exampleInfo.channel.getD "Unknown") ∧
      (∀ up, exampleInfo.uploader = some up → r.artist = up) ∧
      (exampleInfo.uploader = none → ∀ ch, exampleInfo.channel = some ch → r.artist = ch) ∧
      r.title = exampleInfo.title.getD "Unknown" ∧
      (∀ t, exampleInfo.title = some t → r.title = t) :=
  c9_artist_uploader_verbatim
    (fun _ => ⟨.ok (some exampleInfo), .ok (), ["f.m4a"], true⟩) "f" strategies 0
    (by decide) (fun j hj => absurd hj (by omega)) exampleInfo "m4a" rfl rfl (by decide)

/-- Claim C7 counterexample: an attempt whose metadata resolves and whose
download completes but which leaves no probed audio file still reaches
the thumbnail fetch — the source downloads the thumbnail before probing
for the audio file, so a fetch is attempted although no
`{file_id}.{ext}` exists and the run ends in the failure record. -/
theorem c7_counterexample :
    probeExt "f" [] = none ∧
    Event.thumbFetch 0 ∈
      (runStrategies (fun _ => ⟨.ok (some exampleInfo), .ok (), [], true⟩) "f" 0
        [⟨"Android Client"⟩]).2 ∧
    (runStrategies (fun _ => ⟨.ok (some exampleInfo), .ok (), [], true⟩) "f" 0
        [⟨"Android Client"⟩]).1 = .err "All download strategies failed" := by
  decide

/-- Claim C7 as amended: within each strategy attempt whose metadata
resolution succeeds and whose download step completes without raising,
the thumbnail fetch is attempted (whenever the metadata yields a truthy
thumbnail URL) before the extension probe and regardless of its outcome
— in particular also when no `{file_id}.{ext}` audio file exists. -/
theorem c7_thumbnail_fetch_before_probe (world : Nat → AttemptWorld)
    (file_id : String) (i : Nat) (s : Strategy) (rest : List Strategy) (info : Info)
    (hex : (world i).extract = .ok (some info))
    (hdl : (world i).download = .ok ())
    (hurl : fetchAttempted info.thumbnails = true) :
    Event.thumbFetch i ∈ (runStrategies world file_id i (s :: rest)).2 := by
  rcases hpr : probeExt file_id (world i).files with _ | ext
  · rw [show (runStrategies world file_id i (s :: rest)).2 =
        .attempt i s.name :: ([Event.thumbFetch i] ++
          (runStrategies world file_id (i + 1) rest).2) by
      simp [runStrategies, hex, hdl, hpr, hurl]]
    simp
  · rw [show (runStrategies world file_id i (s :: rest)).2 =
        .attempt i s.name :: [Event.thumbFetch i] by
      simp [runStrategies, hex, hdl, hpr, hurl]]
    simp

/-- Claim C7 (amended) witness: the fetch event occurs although the
output directory is empty. -/
theorem c7_thumbnail_fetch_before_probe_witness :
    Event.thumbFetch 0 ∈
      (runStrategies (fun _ => ⟨.ok (some exampleInfo), .ok (), [], true⟩) "f" 0
        [⟨"Android Client"⟩]).2 :=
  c7_thumbnail_fetch_before_probe
    (fun _ => ⟨.ok (some exampleInfo), .ok (), [], true⟩) "f" 0
    ⟨"Android Client"⟩ [] exampleInfo rfl rfl (by decide)
